import Mathlib

/-!
# Verification of the kamaya newsletter-analysis pipeline

Shallow embedding of the string-processing and aggregation logic of the
kamaya repository (a Next.js app that scrapes a newsletter archive,
downloads PDFs, analyzes them with an AI endpoint and aggregates the
extracted terms into frequency rankings).

JavaScript strings are modelled as `List Char`; the regular-expression
matchers used by the code (`String.prototype.match` with the concrete
patterns appearing in the source) are modelled as leftmost-match scanners
over `List Char`, faithful to the backtracking behaviour of the concrete
patterns.
-/

namespace Kamaya

/-- The character class matched by the JavaScript regex `\s` (and the set
removed by `String.prototype.trim`): space, tab, LF, VT, FF, CR, NBSP,
Ogham space mark, the U+2000–U+200A spaces, LS, PS, NNBSP, MMSP,
ideographic space and the BOM. -/
def jsWs (c : Char) : Bool :=
  let n := c.toNat
  n = 32 || n = 9 || n = 10 || n = 11 || n = 12 || n = 13 ||
  n = 0xa0 || n = 0x1680 || (0x2000 ≤ n && n ≤ 0x200a) ||
  n = 0x2028 || n = 0x2029 || n = 0x202f || n = 0x205f ||
  n = 0x3000 || n = 0xfeff

/-- The filesystem characters removed by `sanitizeFilename`
(`src/app/api/extract/route.ts` line 11: `.replace(/[<>:"/\\|?*]/g, '')`). -/
def isDisallowed (c : Char) : Bool :=
  c = '<' || c = '>' || c = ':' || c = '"' || c = '/' || c = '\\' ||
  c = '|' || c = '?' || c = '*'

/-- State machine modelling `.replace(/\s+/g, '_')`
(`src/app/api/extract/route.ts` line 12): each maximal run of whitespace
characters is replaced by a single underscore.  The boolean argument
records whether the previous character was whitespace (i.e. whether we are
inside a run whose underscore has already been emitted). -/
def collapseWs : Bool → List Char → List Char
  | _, [] => []
  | prevWs, c :: rest =>
    if jsWs c then
      if prevWs then collapseWs true rest
      else '_' :: collapseWs true rest
    else c :: collapseWs false rest

/-- `sanitizeFilename` from `src/app/api/extract/route.ts` lines 9–14:
strip the disallowed filesystem characters, collapse whitespace runs to
underscores, and truncate to 100 characters (`substring(0, 100)`). -/
def sanitizeFilename (title : List Char) : List Char :=
  (collapseWs false (title.filter (fun c => !isDisallowed c))).take 100

theorem mem_collapseWs {c : Char} :
    ∀ (b : Bool) (l : List Char), c ∈ collapseWs b l →
      c = '_' ∨ (c ∈ l ∧ jsWs c = false) := by
  intro b l
  induction l generalizing b with
  | nil => intro h; simp [collapseWs] at h
  | cons x xs ih =>
    intro h
    simp only [collapseWs] at h
    by_cases hx : jsWs x
    · simp only [hx, if_true] at h
      by_cases hb : b
      · subst hb; simp only [if_true] at h
        rcases ih _ h with h' | h'
        · exact Or.inl h'
        · exact Or.inr ⟨List.mem_cons_of_mem _ h'.1, h'.2⟩
      · simp only [hb, if_false] at h
        rcases List.mem_cons.mp h with h' | h'
        · exact Or.inl h'
        · rcases ih _ h' with h'' | h''
          · exact Or.inl h''
          · exact Or.inr ⟨List.mem_cons_of_mem _ h''.1, h''.2⟩
    · simp only [hx, if_false] at h
      rcases List.mem_cons.mp h with h' | h'
      · subst h'
        exact Or.inr ⟨List.mem_cons_self _ _, by simpa using hx⟩
      · rcases ih _ h' with h'' | h''
        · exact Or.inl h''
        · exact Or.inr ⟨List.mem_cons_of_mem _ h''.1, h''.2⟩

theorem collapseWs_eq_self {l : List Char} (h : ∀ c ∈ l, jsWs c = false) :
    ∀ b, collapseWs b l = l := by
  induction l with
  | nil => intro b; rfl
  | cons x xs ih =>
    intro b
    have hx : jsWs x = false := h x (List.mem_cons_self _ _)
    simp only [collapseWs, hx, if_false, Bool.false_eq_true]
    exact congrArg (x :: ·) (ih (fun c hc => h c (List.mem_cons_of_mem _ hc)) false)

theorem sanitizeFilename_chars {t : List Char} :
    ∀ c ∈ sanitizeFilename t, isDisallowed c = false ∧ jsWs c = false := by
  intro c hc
  have hc' : c ∈ collapseWs false (t.filter (fun c => !isDisallowed c)) :=
    List.mem_of_mem_take hc
  rcases mem_collapseWs _ _ hc' with h | h
  · subst h; constructor <;> decide
  · refine ⟨?_, h.2⟩
    have := List.of_mem_filter h.1
    simp at this
    exact this

theorem sanitizeFilename_length (t : List Char) :
    (sanitizeFilename t).length ≤ 100 := by
  simp only [sanitizeFilename]
  exact List.length_take_le 100 _

theorem sanitizeFilename_idem (t : List Char) :
    sanitizeFilename (sanitizeFilename t) = sanitizeFilename t := by
  have hchars : ∀ c ∈ sanitizeFilename t, isDisallowed c = false ∧ jsWs c = false :=
    sanitizeFilename_chars
  conv_lhs => rw [sanitizeFilename]
  rw [List.filter_eq_self.mpr (fun c hc => by simpa using (hchars c hc).1)]
  rw [collapseWs_eq_self (fun c hc => (hchars c hc).2) false]
  exact List.take_of_length_le (sanitizeFilename_length t)

/-- `stripLit pat s` returns `some rest` when the literal `pat` is a
prefix of `s` and `rest` is what follows it, `none` otherwise. -/
def stripLit : List Char → List Char → Option (List Char)
  | [], s => some s
  | _ :: _, [] => none
  | p :: ps, c :: cs => if c = p then stripLit ps cs else none

theorem stripLit_append (p s : List Char) : stripLit p (p ++ s) = some s := by
  induction p with
  | nil => rfl
  | cons x xs ih => simp [stripLit, ih]

theorem stripLit_eq_some {p s t : List Char} (h : stripLit p s = some t) :
    s = p ++ t := by
  induction p generalizing s with
  | nil =>
    simp only [stripLit, Option.some.injEq] at h
    simp [h]
  | cons x xs ih =>
    cases s with
    | nil => simp [stripLit] at h
    | cons c cs =>
      simp only [stripLit] at h
      by_cases hc : c = x
      · subst hc
        simp only [if_pos rfl] at h
        simp [ih h]
      · simp [hc] at h

/-- Leftmost-match driver shared by all the regex models: try the pattern
at every start position of the string, from left to right, exactly as the
JavaScript regex engine does for `String.prototype.match`. -/
def scanPos (tryAt : List Char → Option α) : List Char → Option α
  | [] => none
  | c :: rest =>
    match tryAt (c :: rest) with
    | some r => some r
    | none => scanPos tryAt rest

theorem scanPos_isSome {tryAt : List Char → Option α}
    (hnil : tryAt [] = none) {post : List Char} {r : α}
    (h : tryAt post = some r) :
    ∀ pre, ∃ r', scanPos tryAt (pre ++ post) = some r' := by
  intro pre
  induction pre with
  | nil =>
    cases post with
    | nil => rw [hnil] at h; cases h
    | cons c cs => exact ⟨r, by simp [scanPos, h]⟩
  | cons x xs ih =>
    obtain ⟨r', hr'⟩ := ih
    simp only [List.cons_append, scanPos]
    cases htry : tryAt (x :: (xs ++ post)) with
    | some r₀ => exact ⟨r₀, rfl⟩
    | none => exact ⟨r', hr'⟩

theorem scanPos_sound {tryAt : List Char → Option α} {l : List Char} {r : α}
    (h : scanPos tryAt l = some r) :
    ∃ pre post, l = pre ++ post ∧ tryAt post = some r ∧
      ∀ pre₁ post₁, l = pre₁ ++ post₁ → post.length < post₁.length →
        tryAt post₁ = none := by
  induction l with
  | nil => simp [scanPos] at h
  | cons c rest ih =>
    simp only [scanPos] at h
    cases htry : tryAt (c :: rest) with
    | some r₀ =>
      rw [htry] at h
      have h' : some r₀ = some r := h
      refine ⟨[], c :: rest, rfl, by rw [htry]; exact h', ?_⟩
      intro pre₁ post₁ heq hlen
      exfalso
      have : post₁.length ≤ (c :: rest).length := by
        rw [heq, List.length_append]; omega
      omega
    | none =>
      rw [htry] at h
      have h' : scanPos tryAt rest = some r := h
      obtain ⟨pre, post, heq, hsome, hmin⟩ := ih h'
      refine ⟨c :: pre, post, by simp [heq], hsome, ?_⟩
      intro pre₁ post₁ heq₁ hlen
      cases pre₁ with
      | nil =>
        simp only [List.nil_append] at heq₁
        exact heq₁ ▸ htry
      | cons x pre₁' =>
        simp only [List.cons_append, List.cons.injEq] at heq₁
        exact hmin pre₁' post₁ heq₁.2 hlen

/-- The literal part of pattern 1 of `getGoogleDriveDownloadUrl`
(`src/app/api/extract/route.ts` line 29: `/\/file\/d\/([^/]+)/`). -/
def fileDPat : List Char := "/file/d/".toList

/-- Pattern 1 tried at a single position: the literal `/file/d/` followed
by a maximal nonempty run of non-`/` characters (the capture group). -/
def tryFileD (s : List Char) : Option (List Char) :=
  (stripLit fileDPat s).bind fun tail =>
    let captured := tail.takeWhile (fun c => c != '/')
    if captured = [] then none else some captured

/-- The literal part of pattern 2 (`route.ts` line 35: `/[?&]id=([^&]+)/`). -/
def idPat : List Char := "id=".toList

/-- Pattern 2 tried at a single position: a `?` or `&`, the literal `id=`,
then a maximal nonempty run of non-`&` characters (the capture group). -/
def tryIdParam : List Char → Option (List Char)
  | [] => none
  | q :: rest =>
    if q = '?' ∨ q = '&' then
      (stripLit idPat rest).bind fun tail =>
        let captured := tail.takeWhile (fun c => c != '&')
        if captured = [] then none else some captured
    else none

def findFileDMatch : List Char → Option (List Char) := scanPos tryFileD

def findIdParamMatch : List Char → Option (List Char) := scanPos tryIdParam

/-- The direct-download base URL built by both branches of
`getGoogleDriveDownloadUrl` (`route.ts` lines 31 and 37). -/
def gdBase : List Char := "https://drive.google.com/uc?export=download&id=".toList

/-- `getGoogleDriveDownloadUrl` from `src/app/api/extract/route.ts`
lines 27–41: try the `/file/d/<id>` pattern, then the `[?&]id=<id>`
pattern, and return the input unchanged when neither matches. -/
def getGoogleDriveDownloadUrl (viewUrl : List Char) : List Char :=
  match findFileDMatch viewUrl with
  | some id => gdBase ++ id
  | none =>
    match findIdParamMatch viewUrl with
    | some id => gdBase ++ id
    | none => viewUrl

theorem tryFileD_nil : tryFileD [] = none := by decide

theorem tryIdParam_nil : tryIdParam [] = none := rfl

theorem tryFileD_eq_some {s captured : List Char}
    (h : tryFileD s = some captured) :
    ∃ rest, s = fileDPat ++ (captured ++ rest) ∧ captured ≠ [] ∧
      ∀ c ∈ captured, c ≠ '/' := by
  unfold tryFileD at h
  cases hst : stripLit fileDPat s with
  | none => rw [hst] at h; cases h
  | some tail =>
    rw [hst] at h
    simp only [Option.some_bind] at h
    by_cases hemp : tail.takeWhile (fun c => c != '/') = []
    · rw [if_pos hemp] at h; cases h
    · rw [if_neg hemp] at h
      obtain rfl : tail.takeWhile (fun c => c != '/') = captured :=
        Option.some.inj h
      refine ⟨tail.dropWhile (fun c => c != '/'), ?_, hemp, ?_⟩
      · rw [stripLit_eq_some hst, List.takeWhile_append_dropWhile]
      · intro c hc
        have := List.mem_takeWhile_imp hc
        simpa using this

theorem tryFileD_complete {c : Char} (rest : List Char) (h : c ≠ '/') :
    ∃ captured, tryFileD (fileDPat ++ c :: rest) = some captured := by
  unfold tryFileD
  rw [stripLit_append]
  simp only [Option.some_bind, List.takeWhile_cons]
  have hc : (c != '/') = true := by simpa using h
  rw [hc]
  simp

theorem tryIdParam_eq_some {s captured : List Char}
    (h : tryIdParam s = some captured) :
    ∃ q rest, (q = '?' ∨ q = '&') ∧ s = q :: (idPat ++ (captured ++ rest)) ∧
      captured ≠ [] ∧ ∀ c ∈ captured, c ≠ '&' := by
  cases s with
  | nil => cases h
  | cons q rest₀ =>
    simp only [tryIdParam] at h
    by_cases hq : q = '?' ∨ q = '&'
    · rw [if_pos hq] at h
      cases hst : stripLit idPat rest₀ with
      | none => rw [hst] at h; cases h
      | some tail =>
        rw [hst] at h
        simp only [Option.some_bind] at h
        by_cases hemp : tail.takeWhile (fun c => c != '&') = []
        · rw [if_pos hemp] at h; cases h
        · rw [if_neg hemp] at h
          obtain rfl : tail.takeWhile (fun c => c != '&') = captured :=
            Option.some.inj h
          refine ⟨q, tail.dropWhile (fun c => c != '&'), hq, ?_, hemp, ?_⟩
          · rw [stripLit_eq_some hst, List.takeWhile_append_dropWhile]
          · intro c hc
            have := List.mem_takeWhile_imp hc
            simpa using this
    · rw [if_neg hq] at h; cases h

theorem tryIdParam_complete {q c : Char} (rest : List Char)
    (hq : q = '?' ∨ q = '&') (hc : c ≠ '&') :
    ∃ captured, tryIdParam (q :: (idPat ++ c :: rest)) = some captured := by
  simp only [tryIdParam]
  rw [if_pos hq, stripLit_append]
  simp only [Option.some_bind, List.takeWhile_cons]
  have hc' : (c != '&') = true := by simpa using hc
  rw [hc']
  simp

/-- A URL on which pattern 1 of `getGoogleDriveDownloadUrl` matches:
it contains `/file/d/` followed by at least one non-`/` character. -/
def hasFileDCapture (u : List Char) : Prop :=
  ∃ pre c rest, u = pre ++ (fileDPat ++ c :: rest) ∧ c ≠ '/'

/-- A URL containing a full `/file/d/<id>/` path segment (a nonempty
slash-free identifier closed by a further `/`). -/
def hasFileDSegment (u : List Char) : Prop :=
  ∃ pre id post, u = pre ++ (fileDPat ++ (id ++ '/' :: post)) ∧ id ≠ [] ∧
    ∀ c ∈ id, c ≠ '/'

/-- A URL on which pattern 2 of `getGoogleDriveDownloadUrl` matches:
a `?` or `&` followed by `id=` and at least one non-`&` character. -/
def hasIdParamCapture (u : List Char) : Prop :=
  ∃ pre q c rest, (q = '?' ∨ q = '&') ∧
    u = pre ++ q :: (idPat ++ c :: rest) ∧ c ≠ '&'

theorem hasFileDCapture_iff (u : List Char) :
    hasFileDCapture u ↔ ∃ id, findFileDMatch u = some id := by
  constructor
  · rintro ⟨pre, c, rest, rfl, hc⟩
    obtain ⟨captured, hcap⟩ := tryFileD_complete rest hc
    exact scanPos_isSome tryFileD_nil hcap pre
  · rintro ⟨id, hid⟩
    obtain ⟨pre, post, rfl, hsome, -⟩ := scanPos_sound hid
    obtain ⟨rest, hpost, hne, hnoslash⟩ := tryFileD_eq_some hsome
    cases id with
    | nil => exact absurd rfl hne
    | cons c id₁ =>
      exact ⟨pre, c, id₁ ++ rest, by simp [hpost],
        hnoslash c (List.mem_cons_self _ _)⟩

theorem hasIdParamCapture_iff (u : List Char) :
    hasIdParamCapture u ↔ ∃ id, findIdParamMatch u = some id := by
  constructor
  · rintro ⟨pre, q, c, rest, hq, rfl, hc⟩
    obtain ⟨captured, hcap⟩ := tryIdParam_complete rest hq hc
    exact scanPos_isSome tryIdParam_nil hcap pre
  · rintro ⟨id, hid⟩
    obtain ⟨pre, post, rfl, hsome, -⟩ := scanPos_sound hid
    obtain ⟨q, rest, hq, hpost, hne, hnoamp⟩ := tryIdParam_eq_some hsome
    cases id with
    | nil => exact absurd rfl hne
    | cons c id₁ =>
      exact ⟨pre, q, c, id₁ ++ rest, hq, by simp [hpost],
        hnoamp c (List.mem_cons_self _ _)⟩

theorem findFileDMatch_props {u id : List Char}
    (h : findFileDMatch u = some id) : id ≠ [] ∧ ∀ c ∈ id, c ≠ '/' := by
  obtain ⟨pre, post, -, hsome, -⟩ := scanPos_sound h
  obtain ⟨rest, -, hne, hns⟩ := tryFileD_eq_some hsome
  exact ⟨hne, hns⟩

theorem findIdParamMatch_props {u id : List Char}
    (h : findIdParamMatch u = some id) : id ≠ [] ∧ ∀ c ∈ id, c ≠ '&' := by
  obtain ⟨pre, post, -, hsome, -⟩ := scanPos_sound h
  obtain ⟨q, rest, -, -, hne, hna⟩ := tryIdParam_eq_some hsome
  exact ⟨hne, hna⟩

/-- C1: for every viewer URL containing a `/file/d/<id>/` path segment or
an `id=` query parameter, `getGoogleDriveDownloadUrl` returns
`https://drive.google.com/uc?export=download&id=` followed by the
extracted identifier, and a match of the path-segment pattern takes
precedence over the query-parameter pattern. -/
theorem getGoogleDriveDownloadUrl_spec (u : List Char) :
    (hasFileDSegment u →
      ∃ id, id ≠ [] ∧ (∀ c ∈ id, c ≠ '/') ∧ findFileDMatch u = some id ∧
        getGoogleDriveDownloadUrl u = gdBase ++ id)
    ∧ (¬ hasFileDCapture u → hasIdParamCapture u →
      ∃ id, id ≠ [] ∧ (∀ c ∈ id, c ≠ '&') ∧ findIdParamMatch u = some id ∧
        getGoogleDriveDownloadUrl u = gdBase ++ id) := by
  constructor
  · rintro ⟨pre, id, post, rfl, hne, hns⟩
    cases id with
    | nil => exact absurd rfl hne
    | cons c id₁ =>
      have hcap : hasFileDCapture (pre ++ (fileDPat ++ (c :: id₁ ++ '/' :: post))) :=
        ⟨pre, c, id₁ ++ '/' :: post, by simp, hns c (List.mem_cons_self _ _)⟩
      obtain ⟨id', hid'⟩ := (hasFileDCapture_iff _).mp hcap
      obtain ⟨hne', hns'⟩ := findFileDMatch_props hid'
      exact ⟨id', hne', hns', hid', by rw [getGoogleDriveDownloadUrl, hid']⟩
  · intro hno hparam
    have hnone : findFileDMatch u = none := by
      cases hfd : findFileDMatch u with
      | none => rfl
      | some id => exact absurd ((hasFileDCapture_iff u).mpr ⟨id, hfd⟩) hno
    obtain ⟨id, hid⟩ := (hasIdParamCapture_iff u).mp hparam
    obtain ⟨hne, hna⟩ := findIdParamMatch_props hid
    exact ⟨id, hne, hna, hid, by rw [getGoogleDriveDownloadUrl, hnone, hid]⟩

/-- Witness for C1: the two supported URL shapes at concrete inputs. -/
theorem getGoogleDriveDownloadUrl_spec_witness :
    ∃ id, id ≠ [] ∧ (∀ c ∈ id, c ≠ '/') ∧
      findFileDMatch ("https://drive.google.com/file/d/FILE123/view".toList) = some id ∧
      getGoogleDriveDownloadUrl ("https://drive.google.com/file/d/FILE123/view".toList) =
        gdBase ++ id :=
  (getGoogleDriveDownloadUrl_spec _).1
    ⟨"https://drive.google.com".toList, "FILE123".toList, "view".toList,
      by decide, by decide, by decide⟩

/-- C9: for every input URL matching neither the `/file/d/<id>` pattern
nor the `[?&]id=` pattern, `getGoogleDriveDownloadUrl` returns the input
URL unchanged. -/
theorem getGoogleDriveDownloadUrl_id_of_no_match (u : List Char)
    (h1 : ¬ hasFileDCapture u) (h2 : ¬ hasIdParamCapture u) :
    getGoogleDriveDownloadUrl u = u := by
  have hn1 : findFileDMatch u = none := by
    cases hfd : findFileDMatch u with
    | none => rfl
    | some id => exact absurd ((hasFileDCapture_iff u).mpr ⟨id, hfd⟩) h1
  have hn2 : findIdParamMatch u = none := by
    cases hip : findIdParamMatch u with
    | none => rfl
    | some id => exact absurd ((hasIdParamCapture_iff u).mpr ⟨id, hip⟩) h2
  rw [getGoogleDriveDownloadUrl, hn1, hn2]

/-- Witness for C9 at a concrete non-Drive URL. -/
theorem getGoogleDriveDownloadUrl_id_witness :
    getGoogleDriveDownloadUrl ("https://foodhub.co.jp/letter.pdf".toList) =
      "https://foodhub.co.jp/letter.pdf".toList :=
  getGoogleDriveDownloadUrl_id_of_no_match _
    (fun hc => by
      obtain ⟨id, hid⟩ := (hasFileDCapture_iff _).mp hc
      have hn : findFileDMatch ("https://foodhub.co.jp/letter.pdf".toList) = none := by
        decide
      rw [hn] at hid
      cases hid)
    (fun hc => by
      obtain ⟨id, hid⟩ := (hasIdParamCapture_iff _).mp hc
      have hn : findIdParamMatch ("https://foodhub.co.jp/letter.pdf".toList) = none := by
        decide
      rw [hn] at hid
      cases hid)

/-- The cache filename computed by the extract endpoint
(`src/app/api/extract/route.ts` line 55: `sanitizeFilename(title) + '.pdf'`). -/
def cacheFilename (title : List Char) : List Char :=
  sanitizeFilename title ++ ".pdf".toList

/-- C10: filename sanitization is not injective — two distinct titles can
map to the same sanitized filename, so a cache lookup keyed by the
sanitized title returns the same cached entry for both titles. -/
theorem sanitizeFilename_not_injective :
    ∃ t₁ t₂ : List Char, t₁ ≠ t₂ ∧
      sanitizeFilename t₁ = sanitizeFilename t₂ ∧
      cacheFilename t₁ = cacheFilename t₂ ∧
      ∀ cache : List Char → Option (List Nat),
        cache (cacheFilename t₁) = cache (cacheFilename t₂) := by
  refine ⟨"かま屋通信 2024年3月号".toList, "かま屋通信\t2024年3月号".toList,
    by decide, by decide, by decide, ?_⟩
  intro cache
  have h : cacheFilename ("かま屋通信 2024年3月号".toList) =
      cacheFilename ("かま屋通信\t2024年3月号".toList) := by decide
  rw [h]

/-- C2: for every title string, `sanitizeFilename` is idempotent, its
output contains neither the disallowed filesystem characters
`< > : " / \ | ? *` nor any whitespace character, and its length is at
most 100. -/
theorem sanitizeFilename_spec (t : List Char) :
    sanitizeFilename (sanitizeFilename t) = sanitizeFilename t
    ∧ (∀ c ∈ sanitizeFilename t, isDisallowed c = false ∧ jsWs c = false)
    ∧ (sanitizeFilename t).length ≤ 100 :=
  ⟨sanitizeFilename_idem t, sanitizeFilename_chars, sanitizeFilename_length t⟩

/-- `takeToLast c l` returns the longest prefix of `l` ending with `c`
(i.e. everything up to and including the last occurrence of `c`), or
`none` when `c` does not occur in `l`.  This models the greedy `[\s\S]*`
in the pattern `/\{[\s\S]*\}/`. -/
def takeToLast (c : Char) : List Char → Option (List Char)
  | [] => none
  | x :: xs =>
    match takeToLast c xs with
    | some t => some (x :: t)
    | none => if x = c then some [x] else none

theorem takeToLast_isSome {c : Char} {l : List Char} (h : c ∈ l) :
    ∃ t, takeToLast c l = some t := by
  induction l with
  | nil => cases h
  | cons x xs ih =>
    simp only [takeToLast]
    cases hxs : takeToLast c xs with
    | some t => exact ⟨x :: t, rfl⟩
    | none =>
      rcases List.mem_cons.mp h with hx | hmem
      · refine ⟨[x], ?_⟩
        show (if x = c then some [x] else none) = some [x]
        rw [if_pos hx.symm]
      · obtain ⟨t, ht⟩ := ih hmem
        rw [ht] at hxs; cases hxs

theorem takeToLast_eq_some {c : Char} {l t : List Char}
    (h : takeToLast c l = some t) :
    ∃ t' post, t = t' ++ [c] ∧ l = t ++ post ∧ c ∉ post := by
  induction l generalizing t with
  | nil => cases h
  | cons x xs ih =>
    simp only [takeToLast] at h
    cases hxs : takeToLast c xs with
    | some t₀ =>
      rw [hxs] at h
      obtain rfl : x :: t₀ = t := Option.some.inj h
      obtain ⟨t', post, ht, hxs', hpost⟩ := ih hxs
      exact ⟨x :: t', post, by simp [ht], by simp [hxs'], hpost⟩
    | none =>
      rw [hxs] at h
      by_cases hx : x = c
      · subst hx
        rw [if_pos rfl] at h
        obtain rfl : [x] = t := Option.some.inj h
        refine ⟨[], xs, rfl, rfl, ?_⟩
        intro hc
        obtain ⟨t₀, ht₀⟩ := takeToLast_isSome hc
        rw [ht₀] at hxs; cases hxs
      · rw [if_neg hx] at h; cases h

/-- The pattern `/\{[\s\S]*\}/` (`src/app/api/analyze/route.ts` line 63)
tried at a single position: an opening brace followed greedily by
everything up to the last closing brace. -/
def tryBrace : List Char → Option (List Char)
  | [] => none
  | c :: rest =>
    if c = '{' then (takeToLast '}' rest).map (fun body => c :: body)
    else none

/-- The extraction `responseText.match(/\{[\s\S]*\}/)` performed by the
analyze endpoint. -/
def extractJson : List Char → Option (List Char) := scanPos tryBrace

/-- Outcome of the analyze endpoint's JSON-extraction step
(`src/app/api/analyze/route.ts` lines 63–71): `extractFailure` is the
`success: false` response with the extraction error message, `payload`
carries `jsonMatch[0]` onward to `JSON.parse`. -/
inductive AnalyzeOutcome where
  | extractFailure
  | payload (json : List Char)
deriving DecidableEq

/-- The JSON-extraction step of the analyze endpoint applied to the model
reply text. -/
def analyzeExtract (responseText : List Char) : AnalyzeOutcome :=
  match extractJson responseText with
  | none => .extractFailure
  | some j => .payload j

theorem tryBrace_nil : tryBrace [] = none := rfl

theorem tryBrace_eq_some {s r : List Char} (h : tryBrace s = some r) :
    ∃ mid post, s = r ++ post ∧ r = '{' :: (mid ++ ['}']) ∧ '}' ∉ post := by
  cases s with
  | nil => cases h
  | cons c rest =>
    simp only [tryBrace] at h
    by_cases hc : c = '{'
    · subst hc
      rw [if_pos rfl] at h
      cases hb : takeToLast '}' rest with
      | none => rw [hb] at h; cases h
      | some body =>
        rw [hb] at h
        obtain rfl : '{' :: body = r := Option.some.inj h
        obtain ⟨t', post, hbody, hrest, hpost⟩ := takeToLast_eq_some hb
        exact ⟨t', post, by simp [hrest], by simp [hbody], hpost⟩
    · rw [if_neg hc] at h; cases h

theorem tryBrace_complete (mid post : List Char) :
    ∃ r, tryBrace ('{' :: (mid ++ '}' :: post)) = some r := by
  simp only [tryBrace, if_pos rfl]
  obtain ⟨t, ht⟩ := takeToLast_isSome
    (show ('}' : Char) ∈ mid ++ '}' :: post by simp)
  exact ⟨'{' :: t, by rw [ht]; rfl⟩

/-- A reply text containing a brace-delimited substring: some `{` with a
later `}`. -/
def hasBracePair (s : List Char) : Prop :=
  ∃ pre mid post, s = pre ++ '{' :: (mid ++ '}' :: post)

theorem hasBracePair_iff (s : List Char) :
    hasBracePair s ↔ ∃ r, extractJson s = some r := by
  constructor
  · rintro ⟨pre, mid, post, rfl⟩
    obtain ⟨r, hr⟩ := tryBrace_complete mid post
    exact scanPos_isSome tryBrace_nil hr pre
  · rintro ⟨r, hr⟩
    obtain ⟨pre, post₀, rfl, hsome, -⟩ := scanPos_sound hr
    obtain ⟨mid, post, hpost₀, hr', -⟩ := tryBrace_eq_some hsome
    exact ⟨pre, mid, post, by simp [hpost₀, hr']⟩

theorem extractJson_leftmost {s r : List Char} (h : extractJson s = some r) :
    ∃ pre mid post, s = pre ++ (r ++ post) ∧ r = '{' :: (mid ++ ['}']) ∧
      '{' ∉ pre ∧ '}' ∉ post := by
  obtain ⟨pre, post₀, rfl, hsome, hmin⟩ := scanPos_sound h
  obtain ⟨mid, post, hpost₀, hr, hpost⟩ := tryBrace_eq_some hsome
  refine ⟨pre, mid, post, by rw [hpost₀], hr, ?_, hpost⟩
  intro hbrace
  obtain ⟨a, b, rfl⟩ := List.append_of_mem hbrace
  have hlen : post₀.length < ('{' :: (b ++ post₀)).length := by
    simp only [List.length_cons, List.length_append]; omega
  have hnone : tryBrace ('{' :: (b ++ post₀)) = none :=
    hmin a ('{' :: (b ++ post₀)) (by simp) hlen
  have hmem : '}' ∈ b ++ post₀ := by
    have : '}' ∈ r := by rw [hr]; simp
    rw [hpost₀] at *
    simp only [List.mem_append]
    right; left
    exact this
  obtain ⟨t, ht⟩ := takeToLast_isSome hmem
  simp only [tryBrace, if_pos rfl, ht] at hnone
  cases hnone

/-- C5: the analyze endpoint extracts the JSON payload as the first
brace-delimited substring (leftmost `{` with a reachable `}`, greedy to
the last `}`), and reports an extraction failure exactly when the model
reply contains no brace-delimited substring. -/
theorem analyzeExtract_spec (s : List Char) :
    (analyzeExtract s = .extractFailure ↔ ¬ hasBracePair s)
    ∧ ∀ r, analyzeExtract s = .payload r →
        ∃ pre mid post, s = pre ++ (r ++ post) ∧ r = '{' :: (mid ++ ['}']) ∧
          '{' ∉ pre ∧ '}' ∉ post := by
  constructor
  · rw [hasBracePair_iff]
    unfold analyzeExtract
    cases hj : extractJson s with
    | none => simp
    | some r => simp
  · intro r hr
    unfold analyzeExtract at hr
    cases hj : extractJson s with
    | none => rw [hj] at hr; cases hr
    | some r₀ =>
      rw [hj] at hr
      obtain rfl : r₀ = r := AnalyzeOutcome.payload.inj hr
      exact extractJson_leftmost hj

/-- Witness for C5 at a concrete model reply. -/
theorem analyzeExtract_spec_witness :
    ∃ pre mid post,
      (['x', ' ', '{', 'a', '}', ' ', 'y'] : List Char) =
        pre ++ (('{' :: 'a' :: '}' :: []) ++ post) ∧
      ('{' :: 'a' :: '}' :: []) = '{' :: (mid ++ ['}']) ∧
      '{' ∉ pre ∧ '}' ∉ post :=
  (analyzeExtract_spec _).2 _ (by decide)

/-- An HTTP response as observed by the extract endpoint: `ok` status,
`content-type` header and body text. -/
structure HttpResponse where
  ok : Bool
  contentType : List Char
  body : List Char

/-- The access-denied phrases checked by the extract endpoint
(`src/app/api/extract/route.ts` lines 114–116). -/
def accessDeniedPhrases : List (List Char) :=
  ["Request access".toList, "アクセス権".toList, "Access denied".toList,
   "Sign in".toList, "You need permission".toList, "ログイン".toList]

/-- `a.includes(b)`: contiguous-substring test, by trying
`List.isPrefixOf` at every position. -/
def containsSeq (needle : List Char) : List Char → Bool
  | [] => needle.isEmpty
  | c :: rest => needle.isPrefixOf (c :: rest) || containsSeq needle rest

/-- `html.includes(...)` over the six access-denied phrases. -/
def hasAccessDeniedPhrase (html : List Char) : Bool :=
  accessDeniedPhrases.any (fun p => containsSeq p html)

/-- The literal part of the confirm-link pattern
(`route.ts` line 125: `/href="([^"]*confirm=[^"]*)"/`). -/
def hrefPat : List Char := "href=\"".toList

def confirmPat : List Char := "confirm=".toList

/-- The confirm-link pattern tried at a single position: the literal
`href="`, then a run of non-quote characters containing `confirm=`
(the capture), then the closing quote (so the quote must exist, i.e. the
captured run must be a proper prefix of the remaining text). -/
def tryConfirm (s : List Char) : Option (List Char) :=
  (stripLit hrefPat s).bind fun tail =>
    let cap := tail.takeWhile (fun c => c != '"')
    if containsSeq confirmPat cap && cap.length < tail.length then some cap
    else none

def findConfirmLink : List Char → Option (List Char) := scanPos tryConfirm

/-- Why the extract endpoint answered `success: false, skipped: true`. -/
inductive SkipReason where
  | downloadFailed
  | accessDenied
  | htmlNotPdf
deriving DecidableEq

/-- Outcome of the extract endpoint's download handling: either the PDF is
saved and returned, or the article is skipped (`success: false,
skipped: true`); the endpoint never retries a download. -/
inductive ExtractOutcome where
  | saved
  | skip (reason : SkipReason)
deriving DecidableEq

/-- The download-handling logic of the extract endpoint's `POST`
(`src/app/api/extract/route.ts` lines 98–157): a non-OK status is a skip;
an HTML response is checked for access-denied phrases (skip), then for a
Google Drive confirm link, which is fetched once (`confirmResp` is that
single follow-up response, `none` when the fetch throws — the outer catch
also answers with a skip); any other HTML outcome is a skip; a non-HTML
response is saved. -/
def extractDecision (resp : HttpResponse) (confirmResp : Option HttpResponse) :
    ExtractOutcome :=
  if resp.ok = false then .skip .downloadFailed
  else if containsSeq ("text/html".toList) resp.contentType then
    if hasAccessDeniedPhrase resp.body then .skip .accessDenied
    else
      match findConfirmLink resp.body with
      | some _ =>
        match confirmResp with
        | some cr =>
          if cr.ok && (containsSeq ("application/pdf".toList) cr.contentType
              || containsSeq ("octet-stream".toList) cr.contentType) then .saved
          else .skip .htmlNotPdf
        | none => .skip .htmlNotPdf
      | none => .skip .htmlNotPdf
  else .saved

/-- C6: the extract endpoint answers with a skip (`success: false,
`skipped: true`) — never a retry — whenever the download status is not OK,
whenever the response is HTML containing an access-denied phrase (in which
case even a present confirm link is not followed, as the access check
comes first), and whenever the response is any other HTML without a
followable confirm link. -/
theorem extractDecision_skips (resp : HttpResponse)
    (confirmResp : Option HttpResponse) :
    (resp.ok = false →
      extractDecision resp confirmResp = .skip .downloadFailed)
    ∧ (resp.ok = true →
        containsSeq ("text/html".toList) resp.contentType = true →
        hasAccessDeniedPhrase resp.body = true →
        extractDecision resp confirmResp = .skip .accessDenied)
    ∧ (resp.ok = true →
        containsSeq ("text/html".toList) resp.contentType = true →
        hasAccessDeniedPhrase resp.body = false →
        findConfirmLink resp.body = none →
        extractDecision resp confirmResp = .skip .htmlNotPdf) := by
  refine ⟨?_, ?_, ?_⟩
  · intro h1
    simp [extractDecision, h1]
  · intro h1 h2 h3
    simp at h2
    simp [extractDecision, h1, h2, h3]
  · intro h1 h2 h3 h4
    simp at h2
    simp [extractDecision, h1, h2, h3, h4]

/-- Witness for C6: the three skip scenarios at concrete responses. -/
theorem extractDecision_skips_witness :
    extractDecision ⟨false, [], []⟩ none = .skip .downloadFailed
    ∧ extractDecision
        ⟨true, "text/html".toList, "Access denied".toList⟩ none =
        .skip .accessDenied
    ∧ extractDecision
        ⟨true, "text/html".toList, "a plain page".toList⟩ none =
        .skip .htmlNotPdf :=
  ⟨(extractDecision_skips ⟨false, [], []⟩ none).1 rfl,
   (extractDecision_skips _ none).2.1 rfl (by decide) (by decide),
   (extractDecision_skips _ none).2.2 rfl (by decide) (by decide) (by decide)⟩

/-- `\d{n}` (exactly `n` digit characters): returns the matched digits and
the rest of the input. -/
def stripDigits : Nat → List Char → Option (List Char × List Char)
  | 0, s => some ([], s)
  | _ + 1, [] => none
  | n + 1, c :: rest =>
    if c.isDigit then (stripDigits n rest).map (fun p => (c :: p.1, p.2))
    else none

/-- `\d{1,2}` followed by the literal sequence `lits`, greedy: two digits
are taken when the second character is also a digit, otherwise one.  Since
every literal used below (`月`, `日`, `月号`) starts with a non-digit, the
regex engine's backtracking from two digits to one can never succeed, so
this deterministic reading is exact. -/
def try12Lit (lits : List Char) : List Char → Option (List Char × List Char)
  | [] => none
  | [a] =>
    if a.isDigit then (stripLit lits []).map (fun r => ([a], r)) else none
  | a :: b :: rest₂ =>
    if a.isDigit then
      if b.isDigit then (stripLit lits rest₂).map (fun r => ([a, b], r))
      else (stripLit lits (b :: rest₂)).map (fun r => ([a], r))
    else none

/-- The pattern `/(\d{4})年(\d{1,2})月(\d{1,2})日/`
(`src/app/api/scrape/route.ts` line 88) tried at a single position;
returns the three captured digit strings. -/
def tryYMD (s : List Char) : Option (List Char × List Char × List Char) :=
  (stripDigits 4 s).bind fun p =>
  (stripLit ['年'] p.2).bind fun r2 =>
  (try12Lit ['月'] r2).bind fun q =>
  (try12Lit ['日'] q.2).map fun w => (p.1, q.1, w.1)

def matchYMD : List Char → Option (List Char × List Char × List Char) :=
  scanPos tryYMD

/-- The pattern `/(\d{4})年(\d{1,2})月号/` (`route.ts` line 92) tried at a
single position. -/
def tryIssue (s : List Char) : Option (List Char × List Char) :=
  (stripDigits 4 s).bind fun p =>
  (stripLit ['年'] p.2).bind fun r2 =>
  (try12Lit ['月', '号'] r2).map fun q => (p.1, q.1)

def matchIssue : List Char → Option (List Char × List Char) := scanPos tryIssue

/-- `String.prototype.padStart(2, '0')` on a matched digit string (which
has length 1 or 2). -/
def padStart2 (l : List Char) : List Char :=
  List.replicate (2 - l.length) '0' ++ l

/-- The date logic of `fetchArticleDetails`
(`src/app/api/scrape/route.ts` lines 87–95): an explicit
`YYYY年M月D日` date found in the page HTML wins; otherwise a
`YYYY年M月号` issue label in the article title sets the date to the 1st of
that month; otherwise the date stays the empty string. -/
def parseArticleDate (html title : List Char) : List Char :=
  match matchYMD html with
  | some (ys, ms, ds) => ys ++ '-' :: (padStart2 ms ++ '-' :: padStart2 ds)
  | none =>
    match matchIssue title with
    | some (ys, ms) => ys ++ '-' :: (padStart2 ms ++ '-' :: ['0', '1'])
    | none => []

def digitsOnly (l : List Char) : Prop := ∀ c ∈ l, c.isDigit = true

instance (l : List Char) : Decidable (digitsOnly l) :=
  List.decidableBAll _ l

/-- A page HTML containing an explicit `YYYY年M月D日` date. -/
def hasExplicitDate (html : List Char) : Prop :=
  ∃ pre ys ms ds post,
    html = pre ++ (ys ++ '年' :: (ms ++ '月' :: (ds ++ '日' :: post)))
    ∧ ys.length = 4 ∧ digitsOnly ys
    ∧ (ms.length = 1 ∨ ms.length = 2) ∧ digitsOnly ms
    ∧ (ds.length = 1 ∨ ds.length = 2) ∧ digitsOnly ds

/-- An article title containing a `YYYY年M月号` issue label. -/
def hasIssueLabel (title : List Char) : Prop :=
  ∃ pre ys ms post,
    title = pre ++ (ys ++ '年' :: (ms ++ '月' :: '号' :: post))
    ∧ ys.length = 4 ∧ digitsOnly ys
    ∧ (ms.length = 1 ∨ ms.length = 2) ∧ digitsOnly ms

theorem stripDigits_append {l : List Char} (r : List Char)
    (hd : digitsOnly l) : stripDigits l.length (l ++ r) = some (l, r) := by
  induction l with
  | nil => rfl
  | cons c cs ih =>
    have hc : c.isDigit = true := hd c (List.mem_cons_self _ _)
    have ih' := ih (fun x hx => hd x (List.mem_cons_of_mem _ hx))
    simp [stripDigits, hc, ih']

theorem stripDigits_eq_some {n : Nat} {s ds rest : List Char}
    (h : stripDigits n s = some (ds, rest)) :
    s = ds ++ rest ∧ ds.length = n ∧ digitsOnly ds := by
  induction n generalizing s ds with
  | zero =>
    simp only [stripDigits, Option.some.injEq, Prod.mk.injEq] at h
    obtain ⟨rfl, rfl⟩ := h
    exact ⟨rfl, rfl, fun c hc => absurd hc (List.not_mem_nil _)⟩
  | succ n ih =>
    cases s with
    | nil => cases h
    | cons c cs =>
      simp only [stripDigits] at h
      by_cases hc : c.isDigit
      · rw [if_pos hc] at h
        cases hstrip : stripDigits n cs with
        | none => rw [hstrip] at h; cases h
        | some p =>
          rw [hstrip] at h
          simp only [Option.map_some', Option.some.injEq, Prod.mk.injEq] at h
          obtain ⟨h1, rfl⟩ := h
          obtain ⟨hcs, hlen, hdig⟩ :=
            ih (show stripDigits n cs = some (p.1, p.2) by rw [hstrip])
          subst h1
          refine ⟨by simp [hcs], by simp [hlen], ?_⟩
          intro x hx
          rcases List.mem_cons.mp hx with rfl | hx'
          · exact hc
          · exact hdig x hx'
      · rw [if_neg hc] at h; cases h

theorem try12Lit_complete {lits ms : List Char} (rest : List Char)
    (hlen : ms.length = 1 ∨ ms.length = 2) (hd : digitsOnly ms)
    (hlits : ∃ c cs, lits = c :: cs ∧ c.isDigit = false) :
    try12Lit lits (ms ++ (lits ++ rest)) = some (ms, rest) := by
  obtain ⟨c, cs, rfl, hc⟩ := hlits
  match ms, hlen with
  | [m], _ =>
    have hm : m.isDigit = true := hd m (List.mem_cons_self _ _)
    have key : stripLit (c :: cs) (c :: (cs ++ rest)) = some rest := by
      simpa using stripLit_append (c :: cs) rest
    show try12Lit (c :: cs) (m :: c :: (cs ++ rest)) = some ([m], rest)
    simp [try12Lit, hm, hc, key]
  | [m₁, m₂], _ =>
    have hm₁ : m₁.isDigit = true := hd m₁ (List.mem_cons_self _ _)
    have hm₂ : m₂.isDigit = true := hd m₂ (by simp)
    have key : stripLit (c :: cs) (c :: (cs ++ rest)) = some rest := by
      simpa using stripLit_append (c :: cs) rest
    show try12Lit (c :: cs) (m₁ :: m₂ :: (c :: (cs ++ rest))) = some ([m₁, m₂], rest)
    simp [try12Lit, hm₁, hm₂, key]

theorem try12Lit_eq_some {lits s ms rest : List Char}
    (h : try12Lit lits s = some (ms, rest)) :
    s = ms ++ (lits ++ rest) ∧ (ms.length = 1 ∨ ms.length = 2) ∧
      digitsOnly ms := by
  match s with
  | [] => cases h
  | [a] =>
    simp only [try12Lit] at h
    by_cases ha : a.isDigit
    · rw [if_pos ha] at h
      cases hstrip : stripLit lits [] with
      | none => rw [hstrip] at h; cases h
      | some r =>
        rw [hstrip] at h
        simp only [Option.map_some', Option.some.injEq, Prod.mk.injEq] at h
        obtain ⟨rfl, rfl⟩ := h
        have hnil := stripLit_eq_some hstrip
        refine ⟨by simp [← hnil], Or.inl rfl, ?_⟩
        intro x hx
        rcases List.mem_cons.mp hx with rfl | hx'
        · exact ha
        · cases hx'
    · rw [if_neg ha] at h; cases h
  | a :: b :: rest₂ =>
    simp only [try12Lit] at h
    by_cases ha : a.isDigit
    · rw [if_pos ha] at h
      by_cases hb : b.isDigit
      · rw [if_pos hb] at h
        cases hstrip : stripLit lits rest₂ with
        | none => rw [hstrip] at h; cases h
        | some r =>
          rw [hstrip] at h
          simp only [Option.map_some', Option.some.injEq, Prod.mk.injEq] at h
          obtain ⟨rfl, rfl⟩ := h
          refine ⟨by simp [stripLit_eq_some hstrip], Or.inr rfl, ?_⟩
          intro x hx
          rcases List.mem_cons.mp hx with rfl | hx'
          · exact ha
          · rcases List.mem_cons.mp hx' with rfl | hx''
            · exact hb
            · cases hx''
      · rw [if_neg hb] at h
        cases hstrip : stripLit lits (b :: rest₂) with
        | none => rw [hstrip] at h; cases h
        | some r =>
          rw [hstrip] at h
          simp only [Option.map_some', Option.some.injEq, Prod.mk.injEq] at h
          obtain ⟨rfl, rfl⟩ := h
          refine ⟨by simp [stripLit_eq_some hstrip], Or.inl rfl, ?_⟩
          intro x hx
          rcases List.mem_cons.mp hx with rfl | hx'
          · exact ha
          · cases hx'
    · rw [if_neg ha] at h; cases h

theorem tryYMD_nil : tryYMD [] = none := rfl

theorem tryIssue_nil : tryIssue [] = none := rfl

theorem tryYMD_complete {ys ms ds : List Char} (post : List Char)
    (hy : ys.length = 4) (hdy : digitsOnly ys)
    (hm : ms.length = 1 ∨ ms.length = 2) (hdm : digitsOnly ms)
    (hdd : ds.length = 1 ∨ ds.length = 2) (hdds : digitsOnly ds) :
    tryYMD (ys ++ '年' :: (ms ++ '月' :: (ds ++ '日' :: post))) =
      some (ys, ms, ds) := by
  unfold tryYMD
  rw [show ys ++ '年' :: (ms ++ '月' :: (ds ++ '日' :: post)) =
    ys ++ (['年'] ++ (ms ++ (['月'] ++ (ds ++ (['日'] ++ post))))) by simp]
  rw [← hy, stripDigits_append _ hdy]
  simp only [Option.some_bind]
  rw [stripLit_append]
  simp only [Option.some_bind]
  rw [try12Lit_complete _ hm hdm ⟨'月', [], rfl, by decide⟩]
  simp only [Option.some_bind]
  rw [try12Lit_complete _ hdd hdds ⟨'日', [], rfl, by decide⟩]
  rfl

theorem tryIssue_complete {ys ms : List Char} (post : List Char)
    (hy : ys.length = 4) (hdy : digitsOnly ys)
    (hm : ms.length = 1 ∨ ms.length = 2) (hdm : digitsOnly ms) :
    tryIssue (ys ++ '年' :: (ms ++ '月' :: '号' :: post)) = some (ys, ms) := by
  unfold tryIssue
  rw [show ys ++ '年' :: (ms ++ '月' :: '号' :: post) =
    ys ++ (['年'] ++ (ms ++ (['月', '号'] ++ post))) by simp]
  rw [← hy, stripDigits_append _ hdy]
  simp only [Option.some_bind]
  rw [stripLit_append]
  simp only [Option.some_bind]
  rw [try12Lit_complete _ hm hdm ⟨'月', ['号'], rfl, by decide⟩]
  rfl

theorem tryYMD_eq_some {s ys ms ds : List Char}
    (h : tryYMD s = some (ys, ms, ds)) :
    ∃ post, s = ys ++ '年' :: (ms ++ '月' :: (ds ++ '日' :: post))
      ∧ ys.length = 4 ∧ digitsOnly ys
      ∧ (ms.length = 1 ∨ ms.length = 2) ∧ digitsOnly ms
      ∧ (ds.length = 1 ∨ ds.length = 2) ∧ digitsOnly ds := by
  unfold tryYMD at h
  cases h4 : stripDigits 4 s with
  | none => rw [h4] at h; cases h
  | some p =>
    rw [h4] at h
    simp only [Option.some_bind] at h
    cases hy : stripLit ['年'] p.2 with
    | none => rw [hy] at h; cases h
    | some r2 =>
      rw [hy] at h
      simp only [Option.some_bind] at h
      cases hm : try12Lit ['月'] r2 with
      | none => rw [hm] at h; cases h
      | some q =>
        rw [hm] at h
        simp only [Option.some_bind] at h
        cases hd : try12Lit ['日'] q.2 with
        | none => rw [hd] at h; cases h
        | some w =>
          rw [hd] at h
          simp only [Option.map_some', Option.some.injEq, Prod.mk.injEq] at h
          obtain ⟨rfl, rfl, rfl⟩ := h
          obtain ⟨hs, hy4, hydig⟩ := stripDigits_eq_some
            (by rw [h4])
          obtain ⟨hms, hmlen, hmdig⟩ := try12Lit_eq_some
            (by rw [hm])
          obtain ⟨hds, hdlen, hddig⟩ := try12Lit_eq_some
            (by rw [hd])
          refine ⟨w.2, ?_, hy4, hydig, hmlen, hmdig, hdlen, hddig⟩
          rw [hs, stripLit_eq_some hy, hms, hds]
          simp

theorem tryIssue_eq_some {s ys ms : List Char}
    (h : tryIssue s = some (ys, ms)) :
    ∃ post, s = ys ++ '年' :: (ms ++ '月' :: '号' :: post)
      ∧ ys.length = 4 ∧ digitsOnly ys
      ∧ (ms.length = 1 ∨ ms.length = 2) ∧ digitsOnly ms := by
  unfold tryIssue at h
  cases h4 : stripDigits 4 s with
  | none => rw [h4] at h; cases h
  | some p =>
    rw [h4] at h
    simp only [Option.some_bind] at h
    cases hy : stripLit ['年'] p.2 with
    | none => rw [hy] at h; cases h
    | some r2 =>
      rw [hy] at h
      simp only [Option.some_bind] at h
      cases hm : try12Lit ['月', '号'] r2 with
      | none => rw [hm] at h; cases h
      | some q =>
        rw [hm] at h
        simp only [Option.map_some', Option.some.injEq, Prod.mk.injEq] at h
        obtain ⟨rfl, rfl⟩ := h
        obtain ⟨hs, hy4, hydig⟩ := stripDigits_eq_some
          (by rw [h4])
        obtain ⟨hms, hmlen, hmdig⟩ := try12Lit_eq_some
          (by rw [hm])
        refine ⟨q.2, ?_, hy4, hydig, hmlen, hmdig⟩
        rw [hs, stripLit_eq_some hy, hms]
        simp

theorem hasExplicitDate_iff (html : List Char) :
    hasExplicitDate html ↔ ∃ v, matchYMD html = some v := by
  constructor
  · rintro ⟨pre, ys, ms, ds, post, rfl, hy, hdy, hm, hdm, hd, hdd⟩
    exact scanPos_isSome tryYMD_nil (tryYMD_complete post hy hdy hm hdm hd hdd) pre
  · rintro ⟨⟨ys, ms, ds⟩, hv⟩
    obtain ⟨pre, post₀, rfl, hsome, -⟩ := scanPos_sound hv
    obtain ⟨post, hpost, props⟩ := tryYMD_eq_some hsome
    exact ⟨pre, ys, ms, ds, post, by rw [hpost], props⟩

theorem hasIssueLabel_iff (title : List Char) :
    hasIssueLabel title ↔ ∃ v, matchIssue title = some v := by
  constructor
  · rintro ⟨pre, ys, ms, post, rfl, hy, hdy, hm, hdm⟩
    exact scanPos_isSome tryIssue_nil (tryIssue_complete post hy hdy hm hdm) pre
  · rintro ⟨⟨ys, ms⟩, hv⟩
    obtain ⟨pre, post₀, rfl, hsome, -⟩ := scanPos_sound hv
    obtain ⟨post, hpost, props⟩ := tryIssue_eq_some hsome
    exact ⟨pre, ys, ms, post, by rw [hpost], props⟩

theorem padStart2_length {l : List Char} (h : l.length = 1 ∨ l.length = 2) :
    (padStart2 l).length = 2 := by
  rcases h with h | h <;> simp [padStart2, h]

/-- C7: the article date is parsed with two fallbacks — an explicit
`YYYY年M月D日` date in the page HTML gives `YYYY-MM-DD` with zero-padded
month and day; otherwise a `YYYY年M月号` issue label in the title gives
`YYYY-MM-01`; otherwise the date is the empty string. -/
theorem parseArticleDate_spec (html title : List Char) :
    (hasExplicitDate html →
      ∃ ys ms ds, matchYMD html = some (ys, ms, ds)
        ∧ (∃ pre post,
            html = pre ++ (ys ++ '年' :: (ms ++ '月' :: (ds ++ '日' :: post))))
        ∧ ys.length = 4 ∧ digitsOnly ys
        ∧ (padStart2 ms).length = 2 ∧ (padStart2 ds).length = 2
        ∧ parseArticleDate html title =
            ys ++ '-' :: (padStart2 ms ++ '-' :: padStart2 ds))
    ∧ (¬ hasExplicitDate html → hasIssueLabel title →
      ∃ ys ms, matchIssue title = some (ys, ms)
        ∧ (∃ pre post, title = pre ++ (ys ++ '年' :: (ms ++ '月' :: '号' :: post)))
        ∧ ys.length = 4 ∧ digitsOnly ys ∧ (padStart2 ms).length = 2
        ∧ parseArticleDate html title =
            ys ++ '-' :: (padStart2 ms ++ '-' :: ['0', '1']))
    ∧ (¬ hasExplicitDate html → ¬ hasIssueLabel title →
      parseArticleDate html title = []) := by
  have hymd_none : ¬ hasExplicitDate html → matchYMD html = none := by
    intro hno
    cases hv : matchYMD html with
    | none => rfl
    | some v => exact absurd ((hasExplicitDate_iff html).mpr ⟨v, hv⟩) hno
  have hissue_none : ¬ hasIssueLabel title → matchIssue title = none := by
    intro hno
    cases hv : matchIssue title with
    | none => rfl
    | some v => exact absurd ((hasIssueLabel_iff title).mpr ⟨v, hv⟩) hno
  refine ⟨?_, ?_, ?_⟩
  · intro hdate
    obtain ⟨⟨ys, ms, ds⟩, hv⟩ := (hasExplicitDate_iff html).mp hdate
    obtain ⟨pre, post₀, heq, hsome, -⟩ := scanPos_sound hv
    obtain ⟨post, hpost, hy, hdy, hm, hdm, hd, hdd⟩ := tryYMD_eq_some hsome
    exact ⟨ys, ms, ds, hv, ⟨pre, post, by rw [heq, hpost]⟩, hy, hdy,
      padStart2_length hm, padStart2_length hd,
      by rw [parseArticleDate, hv]⟩
  · intro hno hissue
    obtain ⟨⟨ys, ms⟩, hv⟩ := (hasIssueLabel_iff title).mp hissue
    obtain ⟨pre, post₀, heq, hsome, -⟩ := scanPos_sound hv
    obtain ⟨post, hpost, hy, hdy, hm, hdm⟩ := tryIssue_eq_some hsome
    exact ⟨ys, ms, hv, ⟨pre, post, by rw [heq, hpost]⟩, hy, hdy,
      padStart2_length hm,
      by rw [parseArticleDate, hymd_none hno, hv]⟩
  · intro hno hnoissue
    rw [parseArticleDate, hymd_none hno, hissue_none hnoissue]

/-- Witness for C7: an explicit date in the page HTML at a concrete input. -/
theorem parseArticleDate_spec_witness :
    ∃ ys ms ds,
      matchYMD ("発行 2024年3月15日".toList) = some (ys, ms, ds)
      ∧ (∃ pre post, "発行 2024年3月15日".toList =
          pre ++ (ys ++ '年' :: (ms ++ '月' :: (ds ++ '日' :: post))))
      ∧ ys.length = 4 ∧ digitsOnly ys
      ∧ (padStart2 ms).length = 2 ∧ (padStart2 ds).length = 2
      ∧ parseArticleDate ("発行 2024年3月15日".toList)
          ("かま屋通信".toList) =
          ys ++ '-' :: (padStart2 ms ++ '-' :: padStart2 ds) :=
  (parseArticleDate_spec _ _).1
    ⟨"発行 ".toList, ['2', '0', '2', '4'], ['3'], ['1', '5'], [],
      by decide, by decide, by decide, Or.inl (by decide), by decide,
      Or.inr (by decide), by decide⟩

/-- One ranking entry (`RankingItem` in `src/unnamed/part_001`). -/
structure RankingItem where
  name : List Char
  count : Nat
deriving DecidableEq

/-- The four ranked lists (`AnalysisResults` in `src/unnamed/part_001`). -/
structure AnalysisResults where
  ingredients : List RankingItem
  dishes : List RankingItem
  cookingMethods : List RankingItem
  seasons : List RankingItem
deriving DecidableEq

/-- The per-document term lists returned by the analyze endpoint
(`data.data` in `handleAnalyze`). -/
structure DocData where
  ingredients : List (List Char)
  dishes : List (List Char)
  cookingMethods : List (List Char)
  seasons : List (List Char)

/-- `String.prototype.trim()`: whitespace removed from both ends (the set
removed is the same `\s` class). -/
def trim (s : List Char) : List Char :=
  ((s.dropWhile jsWs).reverse.dropWhile jsWs).reverse

/-- `map.set(key, (map.get(key) || 0) + 1)` on a JavaScript `Map`
(insertion-ordered), modelled as an association list: increment the first
entry carrying the key, or append a fresh entry with count 1. -/
def bump (m : List (List Char × Nat)) (k : List Char) :
    List (List Char × Nat) :=
  match m with
  | [] => [(k, 1)]
  | (k', c) :: rest =>
    if k' = k then (k', c + 1) :: rest else (k', c) :: bump rest k

/-- One step of the aggregation (`handleAnalyze`, `src/unnamed/part_001`
lines 389–404): the item is trimmed, an item that trims to the empty
string is skipped, every other occurrence increments its key's count. -/
def addItem (m : List (List Char × Nat)) (it : List Char) :
    List (List Char × Nat) :=
  let k := trim it
  if k = [] then m else bump m k

/-- Aggregation of one item list into one counting map. -/
def addItems (m : List (List Char × Nat)) (items : List (List Char)) :
    List (List Char × Nat) :=
  items.foldl addItem m

/-- The four counting maps accumulated by `handleAnalyze`. -/
structure AggState where
  ingredients : List (List Char × Nat)
  dishes : List (List Char × Nat)
  cookingMethods : List (List Char × Nat)
  seasons : List (List Char × Nat)

def AggState.init : AggState := ⟨[], [], [], []⟩

/-- Aggregating one document outcome: a failed analysis (`none`: the
endpoint answered `success: false` or the loop body caught an error)
contributes nothing; a successful one adds its four item lists. -/
def applyDoc (st : AggState) : Option DocData → AggState
  | none => st
  | some d =>
    ⟨addItems st.ingredients d.ingredients, addItems st.dishes d.dishes,
     addItems st.cookingMethods d.cookingMethods,
     addItems st.seasons d.seasons⟩

def aggregateDocs (docs : List (Option DocData)) : AggState :=
  docs.foldl applyDoc AggState.init

/-- The comparison used by `sortMap` (`src/unnamed/part_001` line 367:
`sort((a, b) => b[1] - a[1])`): count descending. -/
def countGe (a b : List Char × Nat) : Prop := b.2 ≤ a.2

instance : DecidableRel countGe := fun a b => Nat.decLe b.2 a.2

instance : IsTotal (List Char × Nat) countGe := ⟨fun a b => Nat.le_total b.2 a.2⟩

instance : IsTrans (List Char × Nat) countGe :=
  ⟨fun _ _ _ h1 h2 => Nat.le_trans h2 h1⟩

/-- `sortMap` (`src/unnamed/part_001` lines 365–368): the map's entries in
insertion order, stably sorted by count descending, mapped to ranking
items. -/
def sortMap (m : List (List Char × Nat)) : List RankingItem :=
  (List.insertionSort countGe m).map (fun p => ⟨p.1, p.2⟩)

/-- Building the `AnalysisResults` value from the four maps (the
`setResults` calls in `handleAnalyze`). -/
def mkResults (st : AggState) : AnalysisResults :=
  ⟨sortMap st.ingredients, sortMap st.dishes, sortMap st.cookingMethods,
   sortMap st.seasons⟩

/-- The three program points at which the analysis loop can observe the
cancellation signal: at the top of an iteration (before the document is
sent), during the `fetch` of a document (the request aborts and the
document is not aggregated), or during the rate-limit wait after a
document (the document has already been aggregated). -/
inductive CancelPoint where
  | atTop
  | atFetch
  | atWait

/-- The analysis loop of `handleAnalyze` (`src/unnamed/part_001` lines
371–428) with an explicit cancellation oracle: `some (k, pt)` means the
signal is observed while handling the `k`-th remaining document, at point
`pt`; `none` means it is never observed.  Returns the final maps and
whether the loop was interrupted by cancellation (the only exception the
loop propagates). -/
def analyzeLoop : List (Option DocData) → Option (Nat × CancelPoint) →
    AggState → AggState × Bool
  | [], _, st => (st, false)
  | _ :: _, some (0, .atTop), st => (st, true)
  | _ :: _, some (0, .atFetch), st => (st, true)
  | d :: _, some (0, .atWait), st => (applyDoc st d, true)
  | d :: rest, some (k + 1, pt), st =>
    analyzeLoop rest (some (k, pt)) (applyDoc st d)
  | d :: rest, none, st => analyzeLoop rest none (applyDoc st d)

/-- What `handleAnalyze` surfaces: a results report or an error banner. -/
inductive RunOutput where
  | report (r : AnalysisResults)
  | error

/-- `handleAnalyze` (`src/unnamed/part_001` lines 336–459): run the loop;
on normal completion the report is built from the four maps (lines
431–438), and when the loop is interrupted by the cancellation signal the
catch block builds the report from the same maps accumulated so far
(lines 440–450); the error branch is reserved for non-cancellation
exceptions, which the loop body catches and converts to skipped documents
instead of throwing. -/
def handleAnalyze (docs : List (Option DocData))
    (cancel : Option (Nat × CancelPoint)) : RunOutput :=
  match analyzeLoop docs cancel AggState.init with
  | (st, true) => .report (mkResults st)
  | (st, false) => .report (mkResults st)

/-- How many documents have been aggregated when the cancellation signal
is observed at `(k, pt)`. -/
def observedCount (k : Nat) : CancelPoint → Nat
  | .atTop => k
  | .atFetch => k
  | .atWait => k + 1

theorem analyzeLoop_state (docs : List (Option DocData)) :
    ∀ (k : Nat) (pt : CancelPoint) (st : AggState),
      (analyzeLoop docs (some (k, pt)) st).1 =
        (docs.take (observedCount k pt)).foldl applyDoc st := by
  induction docs with
  | nil => intro k pt st; simp [analyzeLoop]
  | cons d rest ih =>
    intro k pt st
    cases k with
    | zero =>
      cases pt with
      | atTop => simp [analyzeLoop, observedCount]
      | atFetch => simp [analyzeLoop, observedCount]
      | atWait => simp [analyzeLoop, observedCount]
    | succ k =>
      have hcount : observedCount (k + 1) pt = observedCount k pt + 1 := by
        cases pt <;> rfl
      rw [hcount]
      show (analyzeLoop rest (some (k, pt)) (applyDoc st d)).1 =
        ((d :: rest).take (observedCount k pt + 1)).foldl applyDoc st
      rw [List.take_succ_cons, List.foldl_cons]
      exact ih k pt (applyDoc st d)

theorem handleAnalyze_eq (docs : List (Option DocData))
    (cancel : Option (Nat × CancelPoint)) :
    handleAnalyze docs cancel =
      .report (mkResults (analyzeLoop docs cancel AggState.init).1) := by
  unfold handleAnalyze
  rcases analyzeLoop docs cancel AggState.init with ⟨st, b⟩
  cases b <;> rfl

/-- C3: wherever the cancellation signal is observed during the analysis
loop, the run produces a results report — never an error — whose four
rankings are exactly the aggregation of the documents processed before the
signal was observed (the prefix of the document list up to the observation
point); partial results are never discarded. -/
theorem handleAnalyze_cancel (docs : List (Option DocData)) (k : Nat)
    (pt : CancelPoint) :
    handleAnalyze docs (some (k, pt)) =
      .report (mkResults (aggregateDocs (docs.take (observedCount k pt)))) := by
  rw [handleAnalyze_eq, analyzeLoop_state]
  rfl

/-- `map.get(k) || 0` read off the association list (first entry wins, as
`bump` updates the first entry). -/
def cnt : List (List Char × Nat) → List Char → Nat
  | [], _ => 0
  | (k', c) :: rest, k => if k' = k then c else cnt rest k

theorem cnt_bump_self (m : List (List Char × Nat)) (k : List Char) :
    cnt (bump m k) k = cnt m k + 1 := by
  induction m with
  | nil => simp [bump, cnt]
  | cons p rest ih =>
    rcases p with ⟨k', c⟩
    by_cases h : k' = k
    · subst h; simp [bump, cnt]
    · simp [bump, cnt, h, ih]

theorem cnt_bump_ne {k k' : List Char} (h : k' ≠ k)
    (m : List (List Char × Nat)) : cnt (bump m k) k' = cnt m k' := by
  induction m with
  | nil => simp [bump, cnt, Ne.symm h]
  | cons p rest ih =>
    rcases p with ⟨k₀, c⟩
    by_cases h0 : k₀ = k
    · subst h0
      simp [bump, cnt, Ne.symm h]
    · simp only [bump, if_neg h0]
      by_cases h1 : k₀ = k'
      · simp [cnt, h1]
      · simp [cnt, h1, ih]

theorem mem_bump {m : List (List Char × Nat)} {k : List Char}
    {p : List Char × Nat} (h : p ∈ bump m k) : p ∈ m ∨ p.1 = k := by
  induction m with
  | nil =>
    simp only [bump, List.mem_singleton] at h
    subst h; exact Or.inr rfl
  | cons q rest ih =>
    rcases q with ⟨k', c⟩
    by_cases h0 : k' = k
    · subst h0
      simp only [bump, if_pos rfl] at h
      rcases List.mem_cons.mp h with rfl | h'
      · exact Or.inr rfl
      · exact Or.inl (List.mem_cons_of_mem _ h')
    · simp only [bump, if_neg h0] at h
      rcases List.mem_cons.mp h with rfl | h'
      · exact Or.inl (List.mem_cons_self _ _)
      · rcases ih h' with h'' | h''
        · exact Or.inl (List.mem_cons_of_mem _ h'')
        · exact Or.inr h''

theorem keys_bump (m : List (List Char × Nat)) (k : List Char) :
    (bump m k).map Prod.fst =
      if k ∈ m.map Prod.fst then m.map Prod.fst
      else m.map Prod.fst ++ [k] := by
  induction m with
  | nil => simp [bump]
  | cons p rest ih =>
    rcases p with ⟨k', c⟩
    by_cases h : k' = k
    · subst h; simp [bump]
    · simp only [bump, if_neg h, List.map_cons]
      rw [ih]
      by_cases hk : k ∈ rest.map Prod.fst
      · rw [if_pos hk, if_pos (by simp [hk])]
      · rw [if_neg hk, if_neg ?_]
        · simp
        · intro hmem
          rcases List.mem_cons.mp hmem with heq | hmem'
          · exact h heq.symm
          · exact hk hmem'

theorem nodup_keys_bump {m : List (List Char × Nat)} {k : List Char}
    (h : (m.map Prod.fst).Nodup) : ((bump m k).map Prod.fst).Nodup := by
  rw [keys_bump]
  split
  · exact h
  · next hk => simp [List.nodup_append, h, hk]

theorem cnt_of_mem {m : List (List Char × Nat)}
    (hnd : (m.map Prod.fst).Nodup) {p : List Char × Nat} (hp : p ∈ m) :
    cnt m p.1 = p.2 := by
  induction m with
  | nil => cases hp
  | cons q rest ih =>
    rcases q with ⟨k', c⟩
    have hnd' : (k' :: rest.map Prod.fst).Nodup := by simpa using hnd
    rcases List.mem_cons.mp hp with rfl | hp'
    · simp [cnt]
    · have hk : k' ≠ p.1 := by
        intro hh
        have hmem : p.1 ∈ rest.map Prod.fst :=
          List.mem_map_of_mem Prod.fst hp'
        rw [← hh] at hmem
        exact (List.nodup_cons.mp hnd').1 hmem
      simp only [cnt, if_neg hk]
      exact ih (List.nodup_cons.mp hnd').2 hp'

theorem mem_keys_of_cnt_pos :
    ∀ {m : List (List Char × Nat)} {k : List Char},
      cnt m k ≠ 0 → k ∈ m.map Prod.fst := by
  intro m
  induction m with
  | nil => intro k h; exact absurd rfl h
  | cons q rest ih =>
    intro k h
    rcases q with ⟨k', c⟩
    by_cases hk : k' = k
    · subst hk; simp
    · simp only [cnt, if_neg hk] at h
      simpa using Or.inr (ih h)

theorem dropWhile_head_not {p : Char → Bool} :
    ∀ {l : List Char} {c : Char},
      (l.dropWhile p).head? = some c → p c = false := by
  intro l
  induction l with
  | nil => intro c h; cases h
  | cons x xs ih =>
    intro c h
    rw [List.dropWhile_cons] at h
    by_cases hx : p x = true
    · rw [if_pos hx] at h
      exact ih h
    · rw [if_neg hx] at h
      obtain rfl : x = c := by simpa using h
      simpa using hx

theorem dropWhile_eq_self_of_head {p : Char → Bool} {l : List Char}
    (h : ∀ c, l.head? = some c → p c = false) : l.dropWhile p = l := by
  cases l with
  | nil => rfl
  | cons x xs =>
    have hx := h x rfl
    simp [List.dropWhile_cons, hx]

theorem trim_eq_self {l : List Char}
    (h1 : ∀ c, l.head? = some c → jsWs c = false)
    (h2 : ∀ c, l.getLast? = some c → jsWs c = false) : trim l = l := by
  unfold trim
  rw [dropWhile_eq_self_of_head h1]
  rw [dropWhile_eq_self_of_head
    (fun c hc => h2 c (by rwa [List.head?_reverse] at hc))]
  exact List.reverse_reverse l

theorem trim_head_not_ws {s : List Char} :
    ∀ c, (trim s).head? = some c → jsWs c = false := by
  intro c h
  unfold trim at h
  rw [List.head?_reverse] at h
  have hwne : (s.dropWhile jsWs).reverse.dropWhile jsWs ≠ [] := by
    intro hnil
    rw [hnil] at h
    cases h
  obtain ⟨pre, hpre⟩ :
      ((s.dropWhile jsWs).reverse.dropWhile jsWs) <:+ ((s.dropWhile jsWs).reverse) :=
    List.dropWhile_suffix jsWs
  have hlast : ((s.dropWhile jsWs).reverse).getLast? = some c := by
    rw [← hpre, List.getLast?_append_of_ne_nil pre hwne]
    exact h
  rw [List.getLast?_reverse] at hlast
  exact dropWhile_head_not hlast

theorem trim_getLast_not_ws {s : List Char} :
    ∀ c, (trim s).getLast? = some c → jsWs c = false := by
  intro c h
  unfold trim at h
  rw [List.getLast?_reverse] at h
  exact dropWhile_head_not h

theorem trim_trim (s : List Char) : trim (trim s) = trim s :=
  trim_eq_self trim_head_not_ws trim_getLast_not_ws

theorem cnt_addItems {k : List Char} (hk : k ≠ []) :
    ∀ (items : List (List Char)) (m : List (List Char × Nat)),
      cnt (addItems m items) k =
        cnt m k + items.countP (fun it => trim it == k) := by
  intro items
  induction items with
  | nil => intro m; simp [addItems]
  | cons it its ih =>
    intro m
    have hstep : addItems m (it :: its) = addItems (addItem m it) its := rfl
    rw [hstep, ih, List.countP_cons]
    unfold addItem
    by_cases hemp : trim it = []
    · rw [if_pos hemp]
      have hbeq : (trim it == k) = false := by
        rw [hemp]
        cases k with
        | nil => exact absurd rfl hk
        | cons a as => rfl
      simp [hbeq]
    · rw [if_neg hemp]
      by_cases heq : trim it = k
      · subst heq
        rw [cnt_bump_self]
        simp only [beq_self_eq_true, eq_self_iff_true, if_true]
        omega
      · rw [cnt_bump_ne (fun hh => heq hh.symm)]
        have hbeq : (trim it == k) = false := by simp [heq]
        simp [hbeq]

theorem nodup_keys_addItems :
    ∀ (items : List (List Char)) (m : List (List Char × Nat)),
      (m.map Prod.fst).Nodup → ((addItems m items).map Prod.fst).Nodup := by
  intro items
  induction items with
  | nil => intro m h; exact h
  | cons it its ih =>
    intro m h
    rw [show addItems m (it :: its) = addItems (addItem m it) its from rfl]
    apply ih
    unfold addItem
    by_cases hemp : trim it = []
    · rw [if_pos hemp]; exact h
    · rw [if_neg hemp]; exact nodup_keys_bump h

theorem keyProps_addItems :
    ∀ (items : List (List Char)) (m : List (List Char × Nat)),
      (∀ p ∈ m, p.1 ≠ [] ∧ trim p.1 = p.1) →
      ∀ p ∈ addItems m items, p.1 ≠ [] ∧ trim p.1 = p.1 := by
  intro items
  induction items with
  | nil => intro m h; exact h
  | cons it its ih =>
    intro m h
    rw [show addItems m (it :: its) = addItems (addItem m it) its from rfl]
    apply ih
    intro p hp
    unfold addItem at hp
    by_cases hemp : trim it = []
    · rw [if_pos hemp] at hp
      exact h p hp
    · rw [if_neg hemp] at hp
      rcases mem_bump hp with hmem | hkey
      · exact h p hmem
      · rw [hkey]
        exact ⟨hemp, trim_trim it⟩

/-- What it means for a ranking list to be the correct aggregation of an
item sequence: counts sorted non-increasing, every entry keyed by a
trimmed non-empty string counted exactly by its number of occurrences,
keys unique, and every occurring trimmed non-empty key present. -/
def rankingOk (r : List RankingItem) (items : List (List Char)) : Prop :=
  r.Pairwise (fun a b => b.count ≤ a.count)
  ∧ (∀ p ∈ r, p.name ≠ [] ∧ trim p.name = p.name ∧
      p.count = items.countP (fun it => trim it == p.name))
  ∧ (r.map RankingItem.name).Nodup
  ∧ ∀ k, k ≠ [] → 0 < items.countP (fun it => trim it == k) →
      ∃ p ∈ r, p.name = k

theorem rankingOk_sortMap (items : List (List Char)) :
    rankingOk (sortMap (addItems [] items)) items := by
  set m := addItems [] items with hm
  have hnodup : (m.map Prod.fst).Nodup :=
    nodup_keys_addItems items [] (by simp)
  have hprops : ∀ p ∈ m, p.1 ≠ [] ∧ trim p.1 = p.1 :=
    keyProps_addItems items [] (by intro p hp; cases hp)
  have hcnt : ∀ k, k ≠ [] →
      cnt m k = items.countP (fun it => trim it == k) := by
    intro k hk
    have h := cnt_addItems hk items []
    simpa [cnt] using h
  have hperm : List.Perm (List.insertionSort countGe m) m :=
    List.perm_insertionSort countGe m
  refine ⟨?_, ?_, ?_, ?_⟩
  · have hs : List.Sorted countGe (List.insertionSort countGe m) :=
      List.sorted_insertionSort countGe m
    exact List.pairwise_map.mpr hs
  · intro p hp
    simp only [sortMap, List.mem_map] at hp
    obtain ⟨q, hq, rfl⟩ := hp
    have hq' : q ∈ m := hperm.mem_iff.mp hq
    obtain ⟨hne, htrim⟩ := hprops q hq'
    refine ⟨hne, htrim, ?_⟩
    show q.2 = _
    rw [← cnt_of_mem hnodup hq', hcnt q.1 hne]
  · have hmapeq : (sortMap m).map RankingItem.name =
        (List.insertionSort countGe m).map (fun p => p.1) := by
      simp [sortMap, List.map_map]
    rw [hmapeq]
    exact ((hperm.map (fun p => p.1)).nodup_iff).mpr hnodup
  · intro k hk hpos
    have hcntpos : cnt m k ≠ 0 := by
      rw [hcnt k hk]
      omega
    have hmem := mem_keys_of_cnt_pos hcntpos
    simp only [List.mem_map] at hmem
    obtain ⟨q, hq, hq1⟩ := hmem
    refine ⟨⟨q.1, q.2⟩, ?_, hq1⟩
    simp only [sortMap, List.mem_map]
    exact ⟨q, hperm.mem_iff.mpr hq, rfl⟩

/-- The items of one field contributed by the successfully analyzed
documents, in processing order. -/
def successItems (docs : List (Option DocData))
    (sel : DocData → List (List Char)) : List (List Char) :=
  ((docs.filterMap id).map sel).flatten

theorem addItems_append (m : List (List Char × Nat))
    (xs ys : List (List Char)) :
    addItems m (xs ++ ys) = addItems (addItems m xs) ys :=
  List.foldl_append _ _ _ _

theorem aggregate_field
    (get : AggState → List (List Char × Nat))
    (sel : DocData → List (List Char))
    (hcompat : ∀ st d, get (applyDoc st (some d)) = addItems (get st) (sel d)) :
    ∀ (docs : List (Option DocData)) (st : AggState),
      get (docs.foldl applyDoc st) = addItems (get st) (successItems docs sel) := by
  intro docs
  induction docs with
  | nil => intro st; rfl
  | cons d rest ih =>
    intro st
    rw [List.foldl_cons, ih (applyDoc st d)]
    cases d with
    | none =>
      rw [show applyDoc st none = st from rfl]
      rw [show successItems (none :: rest) sel = successItems rest sel from by
        simp [successItems]]
    | some dd =>
      rw [hcompat st dd]
      rw [show successItems (some dd :: rest) sel =
          sel dd ++ successItems rest sel from by simp [successItems]]
      rw [addItems_append]

/-- C4: for every sequence of per-document analysis results, each of the
four ranking lists produced from the aggregation is correct for the items
of the successfully analyzed documents: keys are trimmed non-empty
strings, each occurrence of a trimmed key counts for exactly 1, keys are
unique and complete, and the list is sorted by count non-increasing (no
tie-break among equal counts is imposed). -/
theorem handleAnalyze_rankings (docs : List (Option DocData)) :
    rankingOk (mkResults (aggregateDocs docs)).ingredients
      (successItems docs DocData.ingredients)
    ∧ rankingOk (mkResults (aggregateDocs docs)).dishes
      (successItems docs DocData.dishes)
    ∧ rankingOk (mkResults (aggregateDocs docs)).cookingMethods
      (successItems docs DocData.cookingMethods)
    ∧ rankingOk (mkResults (aggregateDocs docs)).seasons
      (successItems docs DocData.seasons) := by
  have h1 : (aggregateDocs docs).ingredients =
      addItems [] (successItems docs DocData.ingredients) :=
    aggregate_field AggState.ingredients DocData.ingredients
      (fun st d => rfl) docs AggState.init
  have h2 : (aggregateDocs docs).dishes =
      addItems [] (successItems docs DocData.dishes) :=
    aggregate_field AggState.dishes DocData.dishes
      (fun st d => rfl) docs AggState.init
  have h3 : (aggregateDocs docs).cookingMethods =
      addItems [] (successItems docs DocData.cookingMethods) :=
    aggregate_field AggState.cookingMethods DocData.cookingMethods
      (fun st d => rfl) docs AggState.init
  have h4 : (aggregateDocs docs).seasons =
      addItems [] (successItems docs DocData.seasons) :=
    aggregate_field AggState.seasons DocData.seasons
      (fun st d => rfl) docs AggState.init
  refine ⟨?_, ?_, ?_, ?_⟩
  · show rankingOk (sortMap (aggregateDocs docs).ingredients) _
    rw [h1]
    exact rankingOk_sortMap _
  · show rankingOk (sortMap (aggregateDocs docs).dishes) _
    rw [h2]
    exact rankingOk_sortMap _
  · show rankingOk (sortMap (aggregateDocs docs).cookingMethods) _
    rw [h3]
    exact rankingOk_sortMap _
  · show rankingOk (sortMap (aggregateDocs docs).seasons) _
    rw [h4]
    exact rankingOk_sortMap _

/-- JSON values, the common format between `JSON.stringify` in
`downloadReportAsJson` and `JSON.parse` in `loadReportFromJson`
(`JSON.parse (JSON.stringify v)` is the identity on such trees, so the
interchange is modelled at the value level). -/
inductive Json where
  | str (s : List Char)
  | num (n : Nat)
  | jsbool (b : Bool)
  | null
  | arr (xs : List Json)
  | obj (fields : List (List Char × Json))

/-- One ranking item as it appears in the serialized report:
`{ name, count }`. -/
def rankingToJson (r : RankingItem) : Json :=
  .obj [("name".toList, .str r.name), ("count".toList, .num r.count)]

/-- `downloadReportAsJson` (`src/unnamed/part_001` lines 462–480): the
report document with `generatedAt` plus the four ranked arrays. -/
def downloadReportAsJson (generatedAt : List Char) (res : AnalysisResults) :
    Json :=
  .obj [("generatedAt".toList, .str generatedAt),
        ("ingredients".toList, .arr (res.ingredients.map rankingToJson)),
        ("dishes".toList, .arr (res.dishes.map rankingToJson)),
        ("cookingMethods".toList, .arr (res.cookingMethods.map rankingToJson)),
        ("seasons".toList, .arr (res.seasons.map rankingToJson))]

/-- Property access `json.key` on a parsed object. -/
def Json.get (j : Json) (key : List Char) : Option Json :=
  match j with
  | .obj fields => (fields.find? (fun f => f.1 == key)).map Prod.snd
  | _ => none

/-- JavaScript truthiness, used by the guard
`json.ingredients && json.dishes && json.cookingMethods && json.seasons`. -/
def Json.truthy : Json → Bool
  | .null => false
  | .jsbool b => b
  | .num n => n != 0
  | .str s => !s.isEmpty
  | .arr _ => true
  | .obj _ => true

/-- Reading a `{ name, count }` object back as a ranking item. -/
def jsonToRanking (j : Json) : Option RankingItem :=
  match j.get ("name".toList), j.get ("count".toList) with
  | some (.str s), some (.num n) => some ⟨s, n⟩
  | _, _ => none

def decodeRankings : List Json → Option (List RankingItem)
  | [] => some []
  | x :: xs =>
    match jsonToRanking x, decodeRankings xs with
    | some r, some rs => some (r :: rs)
    | _, _ => none

def decodeRankingArray (j : Json) : Option (List RankingItem) :=
  match j with
  | .arr xs => decodeRankings xs
  | _ => none

/-- `loadReportFromJson` (`src/unnamed/part_001` lines 515–548): parse the
uploaded document, require the four ranking fields to be present and
truthy, and restore the report from them (`generatedAt` is only logged). -/
def loadReportFromJson (j : Json) : Option AnalysisResults :=
  match j.get ("ingredients".toList), j.get ("dishes".toList),
      j.get ("cookingMethods".toList), j.get ("seasons".toList) with
  | some ji, some jd, some jc, some js =>
    if ji.truthy && jd.truthy && jc.truthy && js.truthy then
      match decodeRankingArray ji, decodeRankingArray jd,
          decodeRankingArray jc, decodeRankingArray js with
      | some a, some b, some c, some d => some ⟨a, b, c, d⟩
      | _, _, _, _ => none
    else none
  | _, _, _, _ => none

theorem decodeRankings_map (l : List RankingItem) :
    decodeRankings (l.map rankingToJson) = some l := by
  induction l with
  | nil => rfl
  | cons r rs ih =>
    have hr : jsonToRanking (rankingToJson r) = some r := rfl
    show decodeRankings (rankingToJson r :: rs.map rankingToJson) = _
    unfold decodeRankings
    rw [hr, ih]

/-- C8: re-loading a downloaded report restores it — `loadReportFromJson`
applied to the document produced by `downloadReportAsJson` yields exactly
the original four ranked arrays, for every report and timestamp. -/
theorem report_roundtrip (generatedAt : List Char) (res : AnalysisResults) :
    loadReportFromJson (downloadReportAsJson generatedAt res) = some res := by
  have e : loadReportFromJson (downloadReportAsJson generatedAt res) =
      (match decodeRankings (res.ingredients.map rankingToJson),
          decodeRankings (res.dishes.map rankingToJson),
          decodeRankings (res.cookingMethods.map rankingToJson),
          decodeRankings (res.seasons.map rankingToJson) with
       | some a, some b, some c, some d =>
          some (⟨a, b, c, d⟩ : AnalysisResults)
       | _, _, _, _ => none) := rfl
  rw [e, decodeRankings_map, decodeRankings_map, decodeRankings_map,
    decodeRankings_map]

end Kamaya
